import Mathlib

/-!
Verification of the moltbook comment library.

The JavaScript sources are shallowly embedded here:
* `src/utils.js` : `buildTree`, `flattenTree`, `sortComments`,
  `calculateControversy`, `countComments`;
* `src/CommentSystem.js` : the comment engine (`create`, `reply`, `delete`,
  `updateScore`, adapter validation, content validation);
* `src/memoryAdapter.js` : the in-memory storage adapter.

Modelling conventions:
* JavaScript records become the `Comment` structure; fields that may be
  absent (`undefined`) are `Option`s.  Both field-naming conventions
  (`parentId` / `parent_id`, etc.) are separate fields, as in the source.
* JavaScript numbers are modelled exactly: integer counters as `Nat`/`Int`
  and the controversy score as `ℚ` (the source only divides there).
* Timestamps are `Nat` clock readings; `new Date(x).getTime()` on a missing
  value (`NaN` in JS) is modelled as `0`.
* `Array.prototype.sort` is a stable sort by a consistent comparator
  (ES2019); it is embedded as `List.insertionSort`, which is stable.
* The engine's `async` methods either throw or return; they are embedded as
  `Except EngineError` functions threading the adapter state explicitly.
  A thrown error before the storage write leaves the state untouched, which
  the embedding renders by returning no state on the error path.
* `buildTree` in the source builds its nodes by in-place mutation of a
  shared map; the embedding reproduces the resulting (finite) tree with a
  fuel-bounded recursion, `C.length` fuel at each root.  Nodes that the
  source leaves unreachable from the roots (members of parent cycles) are
  absent from the result in both the source and the embedding.
-/

/-- A comment record, mirroring the fields read anywhere in the sources. -/
structure Comment where
  id : String := ""
  postId : Option String := none
  post_id : Option String := none
  authorId : Option String := none
  author_id : Option String := none
  content : String := ""
  parentId : Option String := none
  parent_id : Option String := none
  depth : Option Int := none
  score : Option Int := none
  upvotes : Option Nat := none
  downvotes : Option Nat := none
  isDeleted : Option Bool := none
  createdAt : Option Nat := none
  created_at : Option Nat := none
deriving DecidableEq, Inhabited

/-- A node of the nested tree: a comment together with its `replies` array. -/
inductive Node : Type where
  | mk : Comment → List Node → Node
deriving Inhabited

/-- The comment carried by a node. -/
def Node.comment : Node → Comment
  | .mk c _ => c

/-- The `replies` array of a node. -/
def Node.replies : Node → List Node
  | .mk _ rs => rs

/-- JS truthiness on an optional string: `undefined`, `null` and `""` are
falsy. -/
def truthyStr : Option String → Option String
  | some s => if s = "" then none else some s
  | none => none

/-- `a || b` on two optional strings followed by a truthiness test, as in
`comment.parentId || comment.parent_id`. -/
def jsOrStr (a b : Option String) : Option String :=
  match truthyStr a with
  | some s => some s
  | none => truthyStr b

/-- Does some comment of `C` carry id `i`?  (`commentMap.has(i)`.) -/
def hasId (C : List Comment) (i : String) : Bool :=
  C.any (fun c => c.id == i)

/-- The node stored in `commentMap` under the id `i`: the map is filled in
input order, so the last comment with that id wins. -/
def canon (C : List Comment) (i : String) : Comment :=
  ((C.filter (fun c => c.id == i)).getLast?).getD default

/-- The parent id the second pass of `buildTree` actually uses for a
comment: `comment.parentId || comment.parent_id`, kept only when truthy and
present in the map. -/
def resolve (C : List Comment) (c : Comment) : Option String :=
  match jsOrStr c.parentId c.parent_id with
  | some p => if hasId C p then some p else none
  | none => none

/-- Ids pushed into `rootComments`, in input order. -/
def rootIds (C : List Comment) : List String :=
  (C.filter (fun c => (resolve C c).isNone)).map (fun c => c.id)

/-- Ids pushed into the `replies` of the node with id `i`, in input order. -/
def childIds (C : List Comment) (i : String) : List String :=
  (C.filter (fun c => resolve C c == some i)).map (fun c => c.id)

/-- The tree node rooted at the id `i`, unfolded to the given depth.  The
fuel only bounds the recursion; `buildTree` supplies enough of it that every
node the source reaches is fully built. -/
def nodeOf (C : List Comment) : Nat → String → Node
  | 0, i => .mk (canon C i) []
  | fuel + 1, i => .mk (canon C i) ((childIds C i).map (nodeOf C fuel))

/-- `buildTree(comments)` from `src/utils.js`. -/
def buildTree (C : List Comment) : List Node :=
  if C.isEmpty then [] else (rootIds C).map (nodeOf C C.length)

/-- `flattenTree(tree)` from `src/utils.js`: pre-order traversal emitting
each node's comment (the node without its `replies` field). -/
def flattenTree : List Node → List Comment
  | [] => []
  | .mk c rs :: ts => c :: (flattenTree rs ++ flattenTree ts)

/-- `countComments(tree)` from `src/utils.js`. -/
def countComments : List Node → Nat
  | [] => 0
  | .mk _ rs :: ts => 1 + countComments rs + countComments ts

/-- `calculateControversy(comment)` from `src/utils.js`, computed in exact
arithmetic. -/
def calculateControversy (c : Comment) : ℚ :=
  let upvotes : ℚ := (c.upvotes.getD 0 : Nat)
  let downvotes : ℚ := (c.downvotes.getD 0 : Nat)
  let total := upvotes + downvotes
  if total = 0 then 0
  else total * (1 - |upvotes - downvotes| / total)

/-- JS truthiness on an optional number: `undefined`, `null` and `0` are
falsy. -/
def truthyNat : Option Nat → Option Nat
  | some n => if n = 0 then none else some n
  | none => none

/-- `new Date(a.createdAt || a.created_at).getTime()`; a missing timestamp
(`NaN` in JS) is modelled as `0`. -/
def jsTime (c : Comment) : Nat :=
  (match truthyNat c.createdAt with
   | some t => some t
   | none => c.created_at).getD 0

/-- The `'top'` comparator of `sortComments`: descending score, ties broken
by descending creation time. -/
def cmpTop (a b : Comment) : Int :=
  let aScore := a.score.getD 0
  let bScore := b.score.getD 0
  if bScore ≠ aScore then bScore - aScore
  else (jsTime b : Int) - (jsTime a : Int)

/-- The `'new'` comparator: descending creation time. -/
def cmpNew (a b : Comment) : Int :=
  (jsTime b : Int) - (jsTime a : Int)

/-- The `'old'` comparator: ascending creation time. -/
def cmpOld (a b : Comment) : Int :=
  (jsTime a : Int) - (jsTime b : Int)

/-- The `'controversial'` comparator: descending controversy score. -/
def cmpCon (a b : Comment) : ℚ :=
  calculateControversy b - calculateControversy a

/-- `a` may be placed before `b` by the `'top'` comparator. -/
def leTop (a b : Comment) : Prop := cmpTop a b ≤ 0

/-- `a` may be placed before `b` by the `'new'` comparator. -/
def leNew (a b : Comment) : Prop := cmpNew a b ≤ 0

/-- `a` may be placed before `b` by the `'old'` comparator. -/
def leOld (a b : Comment) : Prop := cmpOld a b ≤ 0

/-- `a` may be placed before `b` by the `'controversial'` comparator. -/
def leCon (a b : Comment) : Prop := cmpCon a b ≤ 0

instance : DecidableRel leTop := fun _ _ => Int.decLe _ _
instance : DecidableRel leNew := fun _ _ => Int.decLe _ _
instance : DecidableRel leOld := fun _ _ => Int.decLe _ _
instance : DecidableRel leCon := fun _ _ => inferInstanceAs (Decidable (_ ≤ _))

/-- `sortComments(comments, sort)` from `src/utils.js`.  `Array.prototype
.sort` is stable and every comparator here is consistent, so the result is
the stable sort by the comparator. -/
def sortComments (C : List Comment) (sort : String := "top") : List Comment :=
  if sort = "new" then List.insertionSort leNew C
  else if sort = "old" then List.insertionSort leOld C
  else if sort = "controversial" then List.insertionSort leCon C
  else List.insertionSort leTop C

/-! ## The comment engine (`src/CommentSystem.js`, `src/memoryAdapter.js`) -/

/-- An error raised by the engine: either a `CommentError(message, code)`
from `src/CommentError.js`, or a plain `Error(message)` (no `code`). -/
inductive EngineError : Type where
  | commentErr : String → String → EngineError
  | plainErr : String → EngineError
deriving DecidableEq

/-- The human-readable message of an engine error. -/
def EngineError.message : EngineError → String
  | .commentErr m _ => m
  | .plainErr m => m

/-- The machine-readable code of an engine error; a plain `Error` carries
none. -/
def EngineError.errCode : EngineError → Option String
  | .commentErr _ k => some k
  | .plainErr _ => none

/-- Does the error carry a machine-readable code? -/
def EngineError.hasCode (e : EngineError) : Bool :=
  e.errCode.isSome

/-- Engine configuration; `DEFAULT_OPTIONS` is `{maxDepth: 10, maxLength:
10000}`. -/
structure Options where
  maxDepth : Int := 10
  maxLength : Int := 10000
deriving DecidableEq

/-- `DEFAULT_OPTIONS` from `src/CommentSystem.js`. -/
def DEFAULT_OPTIONS : Options := {}

/-- The state of the in-memory adapter: the comment `Map` (as an
insertion-ordered association list) and the id counter. -/
structure MemState where
  comments : List (String × Comment) := []
  idCounter : Nat := 0
deriving DecidableEq

/-- `Map.prototype.set`: replace the value at an existing key, else append. -/
def mapSet (l : List (String × Comment)) (k : String) (v : Comment) :
    List (String × Comment) :=
  if l.any (fun p => p.1 == k) then
    l.map (fun p => if p.1 == k then (k, v) else p)
  else l ++ [(k, v)]

/-- `getComment(id)` of the memory adapter (`comments.get(id) || null`). -/
def getCommentMem (st : MemState) (id : String) : Option Comment :=
  (st.comments.find? (fun p => p.1 == id)).map (fun p => p.2)

/-- `saveComment(comment)` of the memory adapter: assign the next generated
id, default the timestamp to the current clock reading `now`, store, and
return the stored record. -/
def saveCommentMem (st : MemState) (now : Nat) (c : Comment) :
    Comment × MemState :=
  let counter := st.idCounter + 1
  let id := "comment_" ++ toString counter
  let saved := { c with
    id := id
    createdAt := match c.createdAt with | some t => some t | none => some now }
  (saved, { comments := mapSet st.comments id saved, idCounter := counter })

/-- `deleteComment(id)` of the memory adapter: soft delete in place. -/
def deleteCommentMem (st : MemState) (id : String) : MemState :=
  { st with
    comments := st.comments.map (fun p =>
      if p.1 == id then
        (p.1, { p.2 with content := "[deleted]", isDeleted := some true })
      else p) }

/-- `updateScore(id, delta)` of the memory adapter. -/
def updateScoreMem (st : MemState) (id : String) (delta : Int) :
    Int × MemState :=
  match getCommentMem st id with
  | some c =>
      let newScore := c.score.getD 0 + delta
      (newScore,
       { st with
         comments := st.comments.map (fun p =>
           if p.1 == id then (p.1, { p.2 with score := some newScore })
           else p) })
  | none => (0, st)

/-- Which methods the injected adapter implements (`typeof adapter[m] ===
'function'`). -/
structure AdapterCaps where
  getComment : Bool := true
  getComments : Bool := true
  saveComment : Bool := true
  deleteComment : Bool := true
  updateScore : Bool := true
  getReplies : Bool := true
  getCount : Bool := true
deriving DecidableEq

/-- `_validateAdapter(adapter)`: check the required methods in order and
throw a plain `Error` for the first missing one. -/
def validateAdapter (caps : AdapterCaps) : Except EngineError Unit :=
  if !caps.getComment then
    .error (.plainErr "Adapter must implement getComment() method")
  else if !caps.getComments then
    .error (.plainErr "Adapter must implement getComments() method")
  else if !caps.saveComment then
    .error (.plainErr "Adapter must implement saveComment() method")
  else if !caps.deleteComment then
    .error (.plainErr "Adapter must implement deleteComment() method")
  else .ok ()

/-- `content.trim()`: strip leading and trailing whitespace. -/
def jsTrim (s : String) : String :=
  ⟨((s.data.dropWhile Char.isWhitespace).reverse.dropWhile
      Char.isWhitespace).reverse⟩

/-- `_validateContent(content)` from `src/CommentSystem.js`. -/
def validateContent (opts : Options) (content : String) :
    Except EngineError String :=
  if content = "" then
    .error (.commentErr "Content is required" "EMPTY_CONTENT")
  else
    let trimmed := jsTrim content
    if trimmed.length = 0 then
      .error (.commentErr "Content cannot be empty" "EMPTY_CONTENT")
    else if (trimmed.length : Int) > opts.maxLength then
      .error (.commentErr
        ("Content exceeds maximum length of " ++ toString opts.maxLength)
        "MAX_LENGTH")
    else .ok trimmed

/-- `create({postId, authorId, content})` from `src/CommentSystem.js`,
running against the memory adapter; `now` is the clock reading taken by
`new Date()`. -/
def create (opts : Options) (st : MemState)
    (postId authorId content : String) (now : Nat) :
    Except EngineError (Comment × MemState) :=
  if postId = "" then
    .error (.commentErr "Post ID is required" "MISSING_POST")
  else if authorId = "" then
    .error (.commentErr "Author ID is required" "MISSING_AUTHOR")
  else
    (validateContent opts content).bind fun validated =>
      .ok (saveCommentMem st now
        { postId := some postId
          authorId := some authorId
          content := validated
          parentId := none
          depth := some 0
          score := some 0
          upvotes := some 0
          downvotes := some 0
          createdAt := some now })

/-- `reply({postId, parentId, authorId, content})` from
`src/CommentSystem.js`, running against the memory adapter. -/
def reply (opts : Options) (st : MemState)
    (postId parentId authorId content : String) (now : Nat) :
    Except EngineError (Comment × MemState) :=
  if postId = "" then
    .error (.commentErr "Post ID is required" "MISSING_POST")
  else if parentId = "" then
    .error (.commentErr "Parent ID is required for replies" "MISSING_PARENT")
  else if authorId = "" then
    .error (.commentErr "Author ID is required" "MISSING_AUTHOR")
  else
    match getCommentMem st parentId with
    | none => .error (.commentErr "Parent comment not found" "PARENT_NOT_FOUND")
    | some parent =>
      if parent.postId ≠ some postId ∧ parent.post_id ≠ some postId then
        .error (.commentErr "Parent comment belongs to different post"
          "INVALID_PARENT")
      else
        let parentDepth := parent.depth.getD 0
        let newDepth := parentDepth + 1
        if newDepth > opts.maxDepth then
          .error (.commentErr
            ("Maximum comment depth of " ++ toString opts.maxDepth
              ++ " exceeded")
            "MAX_DEPTH")
        else
          (validateContent opts content).bind fun validated =>
            .ok (saveCommentMem st now
              { postId := some postId
                authorId := some authorId
                content := validated
                parentId := some parentId
                depth := some newDepth
                score := some 0
                upvotes := some 0
                downvotes := some 0
                createdAt := some now })

/-- `delete(commentId, agentId)` from `src/CommentSystem.js`, running
against the memory adapter.  On success the new adapter state is returned;
either failure throws before the adapter's delete runs. -/
def deleteOp (st : MemState) (commentId agentId : String) :
    Except EngineError MemState :=
  match getCommentMem st commentId with
  | none => .error (.commentErr "Comment not found" "NOT_FOUND")
  | some c =>
    if jsOrStr c.authorId c.author_id ≠ some agentId then
      .error (.commentErr "Cannot delete another agent\x27s comment"
        "FORBIDDEN")
    else .ok (deleteCommentMem st commentId)

/-- `updateScore(commentId, delta)` from `src/CommentSystem.js`: a plain
`Error` when the adapter lacks the capability, otherwise delegation (to the
memory adapter here). -/
def updateScore (caps : AdapterCaps) (st : MemState)
    (commentId : String) (delta : Int) :
    Except EngineError (Int × MemState) :=
  if !caps.updateScore then
    .error (.plainErr "Adapter does not support updateScore")
  else .ok (updateScoreMem st commentId delta)

/-- A chain of repeated replies: `replyChain opts p a now n` creates a root
comment on post `p` and then replies `n` times, each time to the comment
created by the previous step. -/
def replyChain (opts : Options) (p a : String) (now : Nat) :
    Nat → Except EngineError (Comment × MemState)
  | 0 => create opts {} p a "hello" now
  | n + 1 =>
    (replyChain opts p a now n).bind fun cs =>
      reply opts cs.2 p cs.1.id a "hello" now

/-! ## Derived notions used to state and prove the claims -/

/-- The parent comment a comment is attached under by `buildTree`: the node
the map holds for its resolved parent id. -/
def parentC (C : List Comment) (c : Comment) : Option Comment :=
  (resolve C c).map (canon C)

/-- The `k`-th ancestor of a comment along resolved parent links. -/
def anc (C : List Comment) : Nat → Comment → Option Comment
  | 0, c => some c
  | k + 1, c => (parentC C c).bind (anc C k)

/-- The parent chain from `c` reaches, within `C.length` steps, a comment
with no resolved parent. -/
def reachesRoot (C : List Comment) (c : Comment) : Bool :=
  (List.range C.length).any (fun k =>
    match anc C k c with
    | some r => (parentC C r).isNone
    | none => false)

/-- The parent relation of `C` has no cycle reachable from any comment:
every comment's parent chain terminates at a root. -/
def Acyclic (C : List Comment) : Prop :=
  ∀ c ∈ C, reachesRoot C c = true

instance : DecidablePred Acyclic := fun _ =>
  inferInstanceAs (Decidable (∀ _ ∈ _, _))

/-- `NodeIn t u`: the node `t` occurs in the tree rooted at `u` (at `u`
itself or inside some reply, recursively). -/
inductive NodeIn : Node → Node → Prop where
  | refl (t : Node) : NodeIn t t
  | child {t s : Node} (c : Comment) (rs : List Node) :
      s ∈ rs → NodeIn t s → NodeIn t (.mk c rs)

/-- `InForest t F`: the node `t` occurs somewhere in the forest `F`. -/
def InForest (t : Node) (F : List Node) : Prop :=
  ∃ r ∈ F, NodeIn t r

/-- A downward id path in the tree structure of `C`: each id is followed by
one of its children ids. -/
inductive IdChain (C : List Comment) : String → List String → Prop where
  | single (i : String) : IdChain C i [i]
  | cons {i k : String} {L : List String} :
      k ∈ childIds C i → IdChain C k L → IdChain C i (i :: L)

/-- A one-element collection whose comment names itself as parent: the
source attaches its node to itself, so it is dropped from the forest. -/
def exSelf : List Comment := [{ id := "a", parentId := some "a" }]

/-- A collection with two comments sharing the id `"y"`: the `commentMap`
keeps only the later record, so the earlier sibling never appears. -/
def exDup : List Comment :=
  [{ id := "x" },
   { id := "y", parentId := some "x", content := "first" },
   { id := "y", parentId := some "x", content := "second" }]

/-- A two-comment parent cycle: neither comment is a root, so the built
forest is empty. -/
def exCycle : List Comment :=
  [{ id := "a", parentId := some "b" },
   { id := "b", parentId := some "a" }]

/-! ## Basic facts about the comment map and the resolved parent relation -/

theorem hasId_iff {C : List Comment} {i : String} :
    hasId C i = true ↔ ∃ c ∈ C, c.id = i := by
  simp [hasId]

theorem canon_mem {C : List Comment} {i : String} (h : hasId C i = true) :
    canon C i ∈ C ∧ (canon C i).id = i := by
  obtain ⟨c, hc, hci⟩ := hasId_iff.mp h
  have hmem : c ∈ C.filter (fun x => x.id == i) := by
    simp [List.mem_filter, hc, hci]
  have hne : C.filter (fun x => x.id == i) ≠ [] := by
    intro hnil; rw [hnil] at hmem; exact absurd hmem (List.not_mem_nil c)
  have hx : (C.filter (fun c => c.id == i)).getLast? =
      some ((C.filter (fun c => c.id == i)).getLast hne) :=
    List.getLast?_eq_getLast _ hne
  have hxmem : (C.filter (fun c => c.id == i)).getLast hne ∈
      C.filter (fun c => c.id == i) := List.getLast_mem hne
  have hcan : canon C i = (C.filter (fun c => c.id == i)).getLast hne := by
    unfold canon
    rw [hx, Option.getD_some]
  rw [hcan]
  have := List.mem_filter.mp hxmem
  exact ⟨this.1, by simpa using this.2⟩

theorem filter_id_eq_single {C : List Comment} {c : Comment}
    (hid : (C.map Comment.id).Nodup) (hc : c ∈ C) :
    C.filter (fun x => x.id == c.id) = [c] := by
  induction C with
  | nil => exact absurd hc (List.not_mem_nil c)
  | cons a C ih =>
    rw [List.map_cons, List.nodup_cons] at hid
    rcases List.mem_cons.mp hc with rfl | hc'
    · have hnil : C.filter (fun x => x.id == c.id) = [] := by
        apply List.filter_eq_nil_iff.mpr
        intro x hx hbeq
        exact hid.1 (by
          have : x.id = c.id := by simpa using hbeq
          exact this ▸ List.mem_map_of_mem Comment.id hx)
      simp [List.filter_cons, hnil]
    · have hne : ¬(a.id == c.id) = true := by
        intro hbeq
        have : a.id = c.id := by simpa using hbeq
        exact hid.1 (this ▸ List.mem_map_of_mem Comment.id hc')
      simp only [List.filter_cons, if_neg hne]
      exact ih hid.2 hc'

theorem canon_of_mem {C : List Comment} {c : Comment}
    (hid : (C.map Comment.id).Nodup) (hc : c ∈ C) :
    canon C c.id = c := by
  simp [canon, filter_id_eq_single hid hc]

theorem resolve_hasId {C : List Comment} {c : Comment} {p : String}
    (h : resolve C c = some p) : hasId C p = true := by
  unfold resolve at h
  split at h
  · split at h
    · injection h with h2
      subst h2
      assumption
    · exact absurd h (by simp)
  · exact absurd h (by simp)

theorem mem_childIds {C : List Comment} {i k : String} :
    k ∈ childIds C i ↔ ∃ c ∈ C, resolve C c = some i ∧ c.id = k := by
  simp [childIds, List.mem_filter, and_assoc]

theorem mem_rootIds {C : List Comment} {i : String} :
    i ∈ rootIds C ↔ ∃ c ∈ C, resolve C c = none ∧ c.id = i := by
  simp [rootIds, List.mem_filter, Option.isNone_iff_eq_none, and_assoc]

theorem childIds_map_canon {C : List Comment} {i : String}
    (hid : (C.map Comment.id).Nodup) :
    (childIds C i).map (canon C) =
      C.filter (fun c => resolve C c == some i) := by
  unfold childIds
  rw [List.map_map]
  have : ∀ c ∈ C.filter (fun c => resolve C c == some i),
      (canon C ∘ Comment.id) c = c := by
    intro c hc
    exact canon_of_mem hid (List.mem_filter.mp hc).1
  rw [List.map_congr_left this, List.map_id']

theorem rootIds_map_canon {C : List Comment}
    (hid : (C.map Comment.id).Nodup) :
    (rootIds C).map (canon C) =
      C.filter (fun c => (resolve C c).isNone) := by
  unfold rootIds
  rw [List.map_map]
  have : ∀ c ∈ C.filter (fun c => (resolve C c).isNone),
      (canon C ∘ Comment.id) c = c := by
    intro c hc
    exact canon_of_mem hid (List.mem_filter.mp hc).1
  rw [List.map_congr_left this, List.map_id']

theorem nodeOf_comment (C : List Comment) (f : Nat) (i : String) :
    (nodeOf C f i).comment = canon C i := by
  cases f <;> simp [nodeOf, Node.comment]

/-! ## The ancestor chain -/

theorem anc_one (C : List Comment) (c : Comment) :
    anc C 1 c = parentC C c := by
  unfold anc
  cases parentC C c <;> simp [anc]

theorem anc_add (C : List Comment) (a b : Nat) (c : Comment) :
    anc C (a + b) c = (anc C a c).bind (anc C b) := by
  induction a generalizing c with
  | zero => simp [anc]
  | succ a ih =>
    have : a + 1 + b = (a + b) + 1 := by omega
    rw [this]
    show (parentC C c).bind (anc C (a + b)) = _
    cases hp : parentC C c with
    | none => simp [anc, hp]
    | some p => simp [anc, hp, ih]

theorem anc_succ_last (C : List Comment) (k : Nat) (c : Comment) :
    anc C (k + 1) c = (anc C k c).bind (parentC C) := by
  rw [anc_add C k 1]
  cases anc C k c <;> simp [anc_one]

theorem parentC_mem {C : List Comment} {c p : Comment}
    (h : parentC C c = some p) : p ∈ C := by
  unfold parentC at h
  rcases hr : resolve C c with _ | q <;> rw [hr] at h
  · exact absurd h (by simp)
  · have := resolve_hasId hr
    have hc := canon_mem this
    simp only [Option.map_some'] at h
    cases h
    exact hc.1

theorem anc_mem {C : List Comment} {c y : Comment} {j : Nat}
    (hc : c ∈ C) (h : anc C j c = some y) : y ∈ C := by
  induction j generalizing c with
  | zero => cases h; exact hc
  | succ j ih =>
    rcases hp : parentC C c with _ | p <;>
      rw [show anc C (j + 1) c = (parentC C c).bind (anc C j) from rfl, hp] at h
    · exact absurd h (by simp)
    · exact ih (parentC_mem hp) h

theorem anc_none_after_root {C : List Comment} {r : Comment}
    (h : parentC C r = none) (m : Nat) : anc C (m + 1) r = none := by
  show (parentC C r).bind (anc C m) = none
  simp [h]

theorem anc_le_of_root {C : List Comment} {c y r : Comment} {j k : Nat}
    (hj : anc C j c = some y) (hk : anc C k c = some r)
    (hr : parentC C r = none) : j ≤ k := by
  by_contra hlt
  push_neg at hlt
  have : j = k + (j - k) := by omega
  rw [this, anc_add, hk] at hj
  obtain ⟨m, hm⟩ : ∃ m, j - k = m + 1 := ⟨j - k - 1, by omega⟩
  rw [hm] at hj
  simp [anc_none_after_root hr] at hj

theorem anc_root_unique {C : List Comment} {c r r' : Comment} {j k : Nat}
    (hj : anc C j c = some r) (hr : parentC C r = none)
    (hk : anc C k c = some r') (hr' : parentC C r' = none) : j = k :=
  Nat.le_antisymm (anc_le_of_root hj hk hr') (anc_le_of_root hk hj hr)

theorem reachesRoot_spec {C : List Comment} {c : Comment} :
    reachesRoot C c = true ↔
      ∃ k < C.length, ∃ r, anc C k c = some r ∧ parentC C r = none := by
  unfold reachesRoot
  rw [List.any_eq_true]
  constructor
  · rintro ⟨k, hk, hmatch⟩
    rw [List.mem_range] at hk
    rcases ha : anc C k c with _ | r <;> rw [ha] at hmatch
    · exact absurd hmatch (by simp)
    · exact ⟨k, hk, r, ha, Option.isNone_iff_eq_none.mp hmatch⟩
  · rintro ⟨k, hk, r, ha, hr⟩
    exact ⟨k, List.mem_range.mpr hk, by rw [ha]; simpa using hr⟩

theorem anc_unique {C : List Comment} {c y : Comment} {j j' : Nat}
    (hacyc : Acyclic C) (hc : c ∈ C)
    (hj : anc C j c = some y) (hj' : anc C j' c = some y) : j = j' := by
  obtain ⟨k, _, r, hk, hr⟩ := reachesRoot_spec.mp (hacyc c hc)
  have h1 : j ≤ k := anc_le_of_root hj hk hr
  have h2 : j' ≤ k := anc_le_of_root hj' hk hr
  have e1 : anc C (k - j) y = some r := by
    have : k = j + (k - j) := by omega
    rw [this, anc_add, hj] at hk
    simpa using hk
  have e2 : anc C (k - j') y = some r := by
    have : k = j' + (k - j') := by omega
    rw [this, anc_add, hj'] at hk
    simpa using hk
  have := anc_root_unique e1 hr e2 hr
  omega

/-! ## Flattening and counting -/

theorem flattenTree_cons (t : Node) (ts : List Node) :
    flattenTree (t :: ts) = flattenTree [t] ++ flattenTree ts := by
  cases t with
  | mk c rs => simp [flattenTree]

theorem flattenTree_append (F1 F2 : List Node) :
    flattenTree (F1 ++ F2) = flattenTree F1 ++ flattenTree F2 := by
  induction F1 with
  | nil => simp [flattenTree]
  | cons t ts ih =>
    cases t with
    | mk c rs => simp [flattenTree, ih]

theorem flattenTree_single (c : Comment) (rs : List Node) :
    flattenTree [Node.mk c rs] = c :: flattenTree rs := by
  simp [flattenTree]

theorem count_flattenTree_map (c : Comment) (L : List String)
    (g : String → Node) :
    (flattenTree (L.map g)).count c =
      (L.map (fun i => (flattenTree [g i]).count c)).sum := by
  induction L with
  | nil => simp [flattenTree]
  | cons i L ih =>
    rw [List.map_cons, flattenTree_cons, List.count_append, List.map_cons,
      List.sum_cons, ih]

theorem hasId_of_mem_childIds {C : List Comment} {i k : String}
    (hk : k ∈ childIds C i) : hasId C k = true := by
  obtain ⟨c, hc, _, hck⟩ := mem_childIds.mp hk
  exact hasId_iff.mpr ⟨c, hc, hck⟩

theorem hasId_of_mem_rootIds {C : List Comment} {i : String}
    (hi : i ∈ rootIds C) : hasId C i = true := by
  obtain ⟨c, hc, _, hci⟩ := mem_rootIds.mp hi
  exact hasId_iff.mpr ⟨c, hc, hci⟩

theorem childIds_nodup {C : List Comment} (i : String)
    (hid : (C.map Comment.id).Nodup) : (childIds C i).Nodup := by
  unfold childIds
  exact hid.sublist ((List.filter_sublist C).map Comment.id)

theorem rootIds_nodup {C : List Comment}
    (hid : (C.map Comment.id).Nodup) : (rootIds C).Nodup := by
  unfold rootIds
  exact hid.sublist ((List.filter_sublist C).map Comment.id)

theorem parentC_canon_child {C : List Comment} {i k : String}
    (hid : (C.map Comment.id).Nodup) (hk : k ∈ childIds C i) :
    parentC C (canon C k) = some (canon C i) := by
  obtain ⟨c, hc, hres, hck⟩ := mem_childIds.mp hk
  rw [← hck, canon_of_mem hid hc]
  unfold parentC
  rw [hres, Option.map_some']

theorem parentC_canon_root {C : List Comment} {i : String}
    (hid : (C.map Comment.id).Nodup) (hi : i ∈ rootIds C) :
    parentC C (canon C i) = none := by
  obtain ⟨c, hc, hres, hci⟩ := mem_rootIds.mp hi
  rw [← hci, canon_of_mem hid hc]
  unfold parentC
  rw [hres, Option.map_none']

theorem sum_map_ite_unique {α : Type} (L : List α) (P : α → Prop)
    [DecidablePred P] (hnd : L.Nodup)
    (huniq : ∀ x ∈ L, ∀ y ∈ L, P x → P y → x = y) :
    (L.map (fun x => if P x then 1 else 0)).sum =
      if ∃ x ∈ L, P x then 1 else 0 := by
  induction L with
  | nil => simp
  | cons a L ih =>
    rw [List.map_cons, List.sum_cons]
    rw [List.nodup_cons] at hnd
    by_cases ha : P a
    · have hnone : ¬∃ x ∈ L, P x := by
        rintro ⟨x, hx, hPx⟩
        exact hnd.1 (huniq x (List.mem_cons_of_mem a hx)
          a (List.mem_cons_self a L) hPx ha ▸ hx)
      rw [if_pos ha,
        ih hnd.2 (fun x hx y hy => huniq x (List.mem_cons_of_mem a hx)
          y (List.mem_cons_of_mem a hy)),
        if_neg hnone, if_pos ⟨a, List.mem_cons_self a L, ha⟩]
    · rw [if_neg ha, zero_add,
        ih hnd.2 (fun x hx y hy => huniq x (List.mem_cons_of_mem a hx)
          y (List.mem_cons_of_mem a hy))]
      by_cases hL : ∃ x ∈ L, P x
      · obtain ⟨x, hx, hPx⟩ := hL
        rw [if_pos ⟨x, hx, hPx⟩, if_pos ⟨x, List.mem_cons_of_mem a hx, hPx⟩]
      · rw [if_neg hL, if_neg (by
          rintro ⟨x, hx, hPx⟩
          rcases List.mem_cons.mp hx with rfl | hx'
          · exact ha hPx
          · exact hL ⟨x, hx', hPx⟩)]

open Classical in
theorem count_flattenTree_nodeOf {C : List Comment}
    (hid : (C.map Comment.id).Nodup) (hacyc : Acyclic C) :
    ∀ (f : Nat) (i : String), hasId C i = true → ∀ c : Comment,
      (flattenTree [nodeOf C f i]).count c =
        if c ∈ C ∧ ∃ j, j ≤ f ∧ anc C j c = some (canon C i) then 1
        else 0 := by
  intro f
  induction f with
  | zero =>
    intro i hi c
    have hflat : flattenTree [nodeOf C 0 i] = [canon C i] := by
      simp [nodeOf, flattenTree]
    rw [hflat]
    by_cases hc : c = canon C i
    · subst hc
      rw [if_pos ⟨(canon_mem hi).1, 0, le_refl 0, rfl⟩]
      simp
    · rw [if_neg (by
        rintro ⟨-, j, hj0, hanc⟩
        have : j = 0 := by omega
        subst this
        exact hc (by simpa [anc] using hanc))]
      simp [List.count_singleton', hc]
  | succ f ih =>
    intro i hi c
    have hflat : flattenTree [nodeOf C (f + 1) i] =
        canon C i :: flattenTree ((childIds C i).map (nodeOf C f)) := by
      rw [show nodeOf C (f + 1) i =
        Node.mk (canon C i) ((childIds C i).map (nodeOf C f)) from rfl]
      exact flattenTree_single _ _
    rw [hflat, List.count_cons, count_flattenTree_map]
    have hmapeq : ((childIds C i).map
          (fun k => (flattenTree [nodeOf C f k]).count c))
        = (childIds C i).map (fun k =>
            if c ∈ C ∧ ∃ j, j ≤ f ∧ anc C j c = some (canon C k) then 1
            else 0) :=
      List.map_congr_left (fun k hk => ih k (hasId_of_mem_childIds hk) c)
    rw [hmapeq]
    have huniq : ∀ k ∈ childIds C i, ∀ k' ∈ childIds C i,
        (c ∈ C ∧ ∃ j, j ≤ f ∧ anc C j c = some (canon C k)) →
        (c ∈ C ∧ ∃ j, j ≤ f ∧ anc C j c = some (canon C k')) → k = k' := by
      rintro k hk k' hk' ⟨hcC, j, hjf, hj⟩ ⟨-, j', hjf', hj'⟩
      have h1 : anc C (j + 1) c = some (canon C i) := by
        rw [anc_succ_last, hj, Option.some_bind, parentC_canon_child hid hk]
      have h2 : anc C (j' + 1) c = some (canon C i) := by
        rw [anc_succ_last, hj', Option.some_bind, parentC_canon_child hid hk']
      have : j + 1 = j' + 1 := anc_unique hacyc hcC h1 h2
      have : j = j' := by omega
      subst this
      rw [hj] at hj'
      have hck : canon C k = canon C k' := Option.some.inj hj'
      have e1 := (canon_mem (hasId_of_mem_childIds hk)).2
      have e2 := (canon_mem (hasId_of_mem_childIds hk')).2
      rw [← e1, ← e2, hck]
    rw [sum_map_ite_unique _ _ (childIds_nodup i hid) huniq]
    by_cases hc : c = canon C i
    · subst hc
      have hcC : canon C i ∈ C := (canon_mem hi).1
      have hA : ¬∃ k ∈ childIds C i, canon C i ∈ C ∧
          ∃ j, j ≤ f ∧ anc C j (canon C i) = some (canon C k) := by
        rintro ⟨k, hk, -, j, hjf, hj⟩
        have h1 : anc C (j + 1) (canon C i) = some (canon C i) := by
          rw [anc_succ_last, hj, Option.some_bind, parentC_canon_child hid hk]
        have h0 : anc C 0 (canon C i) = some (canon C i) := rfl
        have := anc_unique hacyc hcC h1 h0
        omega
      have hB : canon C i ∈ C ∧
          ∃ j, j ≤ f + 1 ∧ anc C j (canon C i) = some (canon C i) :=
        ⟨hcC, 0, Nat.zero_le _, rfl⟩
      rw [if_neg hA, if_pos hB]
      simp
    · have hiff : (∃ k ∈ childIds C i,
          c ∈ C ∧ ∃ j, j ≤ f ∧ anc C j c = some (canon C k)) ↔
          (c ∈ C ∧ ∃ j, j ≤ f + 1 ∧ anc C j c = some (canon C i)) := by
        constructor
        · rintro ⟨k, hk, hcC, j, hjf, hj⟩
          refine ⟨hcC, j + 1, by omega, ?_⟩
          rw [anc_succ_last, hj, Option.some_bind, parentC_canon_child hid hk]
        · rintro ⟨hcC, j, hjf, hj⟩
          rcases j with _ | j'
          · exact absurd (by simpa [anc] using hj) hc
          · rw [anc_succ_last] at hj
            rcases hy : anc C j' c with _ | y <;> rw [hy] at hj
            · exact absurd hj (by simp)
            · rw [Option.some_bind] at hj
              have hyC : y ∈ C := anc_mem hcC hy
              obtain ⟨q, hq, hcq⟩ : ∃ q, resolve C y = some q ∧
                  canon C q = canon C i := by
                unfold parentC at hj
                rcases hr : resolve C y with _ | q <;> rw [hr] at hj
                · exact absurd hj (by simp)
                · rw [Option.map_some'] at hj
                  injection hj with h3
                  exact ⟨q, rfl, h3⟩
              have hqi : q = i := by
                have e1 := (canon_mem (resolve_hasId hq)).2
                have e2 := (canon_mem hi).2
                rw [← e1, hcq, e2]
              subst hqi
              refine ⟨y.id, mem_childIds.mpr ⟨y, hyC, hq, rfl⟩, hcC,
                j', by omega, ?_⟩
              rw [canon_of_mem hid hyC]
              exact hy
      have hbeq : (canon C i == c) = false := by
        simp only [beq_eq_false_iff_ne, ne_eq]
        exact fun h => hc h.symm
      rw [hbeq]
      by_cases hcond : c ∈ C ∧ ∃ j, j ≤ f + 1 ∧ anc C j c = some (canon C i)
      · have hA : ∃ k ∈ childIds C i, c ∈ C ∧
            ∃ j, j ≤ f ∧ anc C j c = some (canon C k) := hiff.mpr hcond
        rw [if_pos hA, if_pos hcond]
        simp
      · have hA : ¬∃ k ∈ childIds C i, c ∈ C ∧
            ∃ j, j ≤ f ∧ anc C j c = some (canon C k) :=
          fun h => hcond (hiff.mp h)
        rw [if_neg hA, if_neg hcond]
        simp

open Classical in
theorem count_flattenTree_buildTree {C : List Comment}
    (hid : (C.map Comment.id).Nodup) (hacyc : Acyclic C) (c : Comment) :
    (flattenTree (buildTree C)).count c = C.count c := by
  unfold buildTree
  by_cases hC : C.isEmpty
  · rw [if_pos hC]
    have : C = [] := List.isEmpty_iff.mp hC
    subst this
    simp [flattenTree]
  · rw [if_neg hC, count_flattenTree_map]
    have hmapeq : ((rootIds C).map
          (fun i => (flattenTree [nodeOf C C.length i]).count c))
        = (rootIds C).map (fun i =>
            if c ∈ C ∧ ∃ j, j ≤ C.length ∧ anc C j c = some (canon C i)
            then 1 else 0) :=
      List.map_congr_left (fun i hi =>
        count_flattenTree_nodeOf hid hacyc C.length i
          (hasId_of_mem_rootIds hi) c)
    rw [hmapeq]
    have huniq : ∀ i ∈ rootIds C, ∀ i' ∈ rootIds C,
        (c ∈ C ∧ ∃ j, j ≤ C.length ∧ anc C j c = some (canon C i)) →
        (c ∈ C ∧ ∃ j, j ≤ C.length ∧ anc C j c = some (canon C i')) →
        i = i' := by
      rintro i hi i' hi' ⟨hcC, j, hjn, hj⟩ ⟨-, j', hjn', hj'⟩
      have hjj : j = j' := anc_root_unique hj (parentC_canon_root hid hi)
        hj' (parentC_canon_root hid hi')
      subst hjj
      rw [hj] at hj'
      have hcc := Option.some.inj hj'
      have e1 := (canon_mem (hasId_of_mem_rootIds hi)).2
      have e2 := (canon_mem (hasId_of_mem_rootIds hi')).2
      rw [← e1, ← e2, hcc]
    rw [sum_map_ite_unique _ _ (rootIds_nodup hid) huniq]
    by_cases hcC : c ∈ C
    · have hex : ∃ i ∈ rootIds C, c ∈ C ∧
          ∃ j, j ≤ C.length ∧ anc C j c = some (canon C i) := by
        obtain ⟨k, hkn, r, hk, hr⟩ := reachesRoot_spec.mp (hacyc c hcC)
        have hrC : r ∈ C := anc_mem hcC hk
        have hres : resolve C r = none := by
          unfold parentC at hr
          exact Option.map_eq_none'.mp hr
        refine ⟨r.id, mem_rootIds.mpr ⟨r, hrC, hres, rfl⟩, hcC, k,
          by omega, ?_⟩
        rw [canon_of_mem hid hrC]
        exact hk
      rw [if_pos hex]
      exact (List.count_eq_one_of_mem hid.of_map hcC).symm
    · rw [if_neg (by rintro ⟨i, hi, h, -⟩; exact hcC h)]
      exact (List.count_eq_zero_of_not_mem hcC).symm

theorem flattenTree_buildTree_perm {C : List Comment}
    (hid : (C.map Comment.id).Nodup) (hacyc : Acyclic C) :
    (flattenTree (buildTree C)).Perm C :=
  List.perm_iff_count.mpr (fun c => count_flattenTree_buildTree hid hacyc c)

theorem countComments_eq_length (F : List Node) :
    countComments F = (flattenTree F).length := by
  induction F using countComments.induct with
  | case1 => simp [countComments, flattenTree]
  | case2 c rs ts ih1 ih2 =>
    simp [countComments, flattenTree, ih1, ih2]
    omega

theorem countComments_buildTree {C : List Comment}
    (hid : (C.map Comment.id).Nodup) (hacyc : Acyclic C) :
    countComments (buildTree C) = C.length := by
  rw [countComments_eq_length, (flattenTree_buildTree_perm hid hacyc).length_eq]

theorem buildTree_map_comment {C : List Comment}
    (hid : (C.map Comment.id).Nodup) :
    (buildTree C).map Node.comment =
      C.filter (fun c => (resolve C c).isNone) := by
  unfold buildTree
  by_cases hC : C.isEmpty
  · rw [if_pos hC]
    have : C = [] := List.isEmpty_iff.mp hC
    subst this
    rfl
  · rw [if_neg hC, List.map_map]
    have : ∀ i ∈ rootIds C,
        (Node.comment ∘ nodeOf C C.length) i = canon C i := by
      intro i _
      exact nodeOf_comment C C.length i
    rw [List.map_congr_left this, rootIds_map_canon hid]

/-! ## Paths through the built forest -/

theorem idChain_ne_nil {C : List Comment} {i : String} {L : List String}
    (h : IdChain C i L) : L ≠ [] := by
  cases h <;> simp

theorem nodeIn_nodeOf {C : List Comment} {t u : Node} (h : NodeIn t u) :
    ∀ f i, u = nodeOf C f i →
      ∃ L j, IdChain C i L ∧ L.getLast? = some j ∧ L.length ≤ f + 1 ∧
        t = nodeOf C (f + 1 - L.length) j := by
  induction h with
  | refl =>
    intro f i hu
    exact ⟨[i], i, IdChain.single i, rfl, by simp, by simpa using hu⟩
  | @child s c rs hs hin ih =>
    intro f i hu
    cases f with
    | zero =>
      rw [show nodeOf C 0 i = Node.mk (canon C i) [] from rfl] at hu
      injection hu with h1 h2
      rw [h2] at hs
      exact absurd hs (List.not_mem_nil _)
    | succ f' =>
      rw [show nodeOf C (f' + 1) i =
        Node.mk (canon C i) ((childIds C i).map (nodeOf C f')) from rfl] at hu
      injection hu with h1 h2
      rw [h2] at hs
      obtain ⟨k, hk, hsk⟩ := List.mem_map.mp hs
      obtain ⟨L, j, hchain, hlast, hlen, ht⟩ := ih f' k hsk.symm
      obtain ⟨L', rfl⟩ : ∃ L', L = k :: L' := by
        cases hchain
        · exact ⟨[], rfl⟩
        · exact ⟨_, rfl⟩
      refine ⟨i :: k :: L', j, IdChain.cons hk hchain, ?_,
        by simp at hlen ⊢; omega, ?_⟩
      · rw [List.getLast?_cons_cons]
        exact hlast
      · have harith : f' + 1 + 1 - (k :: L').length.succ =
            f' + 1 - (k :: L').length := by omega
        rw [List.length_cons, harith]
        exact ht

theorem idChain_ids {C : List Comment} :
    ∀ {i : String} {L : List String}, IdChain C i L → hasId C i = true →
      ∀ x ∈ L, hasId C x = true := by
  intro i L h
  induction h with
  | single i =>
    intro hi x hx
    rw [List.mem_singleton] at hx
    subst hx
    exact hi
  | @cons i k L hk hchain ih =>
    intro hi x hx
    rcases List.mem_cons.mp hx with rfl | hx'
    · exact hi
    · exact ih (hasId_of_mem_childIds hk) x hx'

theorem idChain_nodup {C : List Comment}
    (hid : (C.map Comment.id).Nodup) :
    ∀ {i : String} {L : List String}, IdChain C i L →
      ∀ {a : Nat} {r : Comment},
        anc C a (canon C i) = some r → parentC C r = none →
        L.Nodup ∧ ∀ x ∈ L, ∃ m, a ≤ m ∧ anc C m (canon C x) = some r := by
  intro i L h
  induction h with
  | single i =>
    intro a r ha hr
    refine ⟨List.nodup_singleton i, fun x hx => ?_⟩
    rw [List.mem_singleton] at hx
    subst hx
    exact ⟨a, le_refl a, ha⟩
  | @cons i k L hk hchain ih =>
    intro a r ha hr
    have hk1 : anc C (a + 1) (canon C k) = some r := by
      show (parentC C (canon C k)).bind (anc C a) = some r
      rw [parentC_canon_child hid hk, Option.some_bind, ha]
    obtain ⟨hnd, hall⟩ := ih hk1 hr
    constructor
    · rw [List.nodup_cons]
      refine ⟨fun hiL => ?_, hnd⟩
      obtain ⟨m, hm, hmanc⟩ := hall i hiL
      have := anc_root_unique ha hr hmanc hr
      omega
    · intro x hx
      rcases List.mem_cons.mp hx with rfl | hx'
      · exact ⟨a, le_refl a, ha⟩
      · obtain ⟨m, hm, hmanc⟩ := hall x hx'
        exact ⟨m, by omega, hmanc⟩

theorem idChain_length_le {C : List Comment}
    (hid : (C.map Comment.id).Nodup) {i : String} {L : List String}
    (hch : IdChain C i L) (hroot : i ∈ rootIds C) :
    L.length ≤ C.length := by
  have h0 : anc C 0 (canon C i) = some (canon C i) := rfl
  have hr : parentC C (canon C i) = none := parentC_canon_root hid hroot
  obtain ⟨hnd, -⟩ := idChain_nodup hid hch h0 hr
  have hsub : L ⊆ C.map Comment.id := by
    intro x hx
    obtain ⟨c, hc, hcx⟩ := hasId_iff.mp
      (idChain_ids hch (hasId_of_mem_rootIds hroot) x hx)
    exact hcx ▸ List.mem_map_of_mem Comment.id hc
  calc L.length ≤ (C.map Comment.id).length :=
        (List.subperm_of_subset hnd hsub).length_le
    _ = C.length := List.length_map _ _

theorem inForest_buildTree_shape {C : List Comment}
    (hid : (C.map Comment.id).Nodup) {t : Node}
    (h : InForest t (buildTree C)) :
    ∃ g i, t = nodeOf C (g + 1) i ∧ hasId C i = true := by
  obtain ⟨rt, hrt, hin⟩ := h
  unfold buildTree at hrt
  by_cases hC : C.isEmpty
  · rw [if_pos hC] at hrt
    exact absurd hrt (List.not_mem_nil rt)
  · rw [if_neg hC] at hrt
    obtain ⟨i0, hi0, hrt'⟩ := List.mem_map.mp hrt
    obtain ⟨L, j, hch, hlast, hlen, ht⟩ := nodeIn_nodeOf hin C.length i0
      hrt'.symm
    have hlenC : L.length ≤ C.length := idChain_length_le hid hch hi0
    have hpos : 1 ≤ L.length :=
      List.length_pos.mpr (idChain_ne_nil hch)
    have hj : hasId C j = true :=
      idChain_ids hch (hasId_of_mem_rootIds hi0) j
        (List.mem_of_mem_getLast? hlast)
    refine ⟨C.length - L.length, j, ?_, hj⟩
    rw [ht]
    congr 1
    omega

theorem inForest_replies {C : List Comment}
    (hid : (C.map Comment.id).Nodup) {t : Node}
    (h : InForest t (buildTree C)) :
    t.replies.map Node.comment =
      C.filter (fun c => resolve C c == some t.comment.id) := by
  obtain ⟨g, i, rfl, hi⟩ := inForest_buildTree_shape hid h
  have hrep : (nodeOf C (g + 1) i).replies = (childIds C i).map (nodeOf C g) :=
    rfl
  have hcomm : (nodeOf C (g + 1) i).comment.id = i := by
    rw [nodeOf_comment]
    exact (canon_mem hi).2
  rw [hrep, hcomm, List.map_map]
  have h1 : ∀ k ∈ childIds C i,
      (Node.comment ∘ nodeOf C g) k = canon C k := by
    intro k _
    exact nodeOf_comment C g k
  rw [List.map_congr_left h1]
  exact childIds_map_canon hid

/-! ## Pre-order segments of the flattening -/

theorem flattenTree_node (t : Node) :
    flattenTree [t] = t.comment :: flattenTree t.replies := by
  cases t with
  | mk c rs => simp [flattenTree, Node.comment, Node.replies]

theorem mem_flattenTree_seg {t : Node} {F : List Node} (h : t ∈ F) :
    ∃ A B, flattenTree F = A ++ flattenTree [t] ++ B := by
  induction F with
  | nil => exact absurd h (List.not_mem_nil t)
  | cons s ts ih =>
    rcases List.mem_cons.mp h with rfl | h'
    · exact ⟨[], flattenTree ts, by rw [flattenTree_cons]; simp⟩
    · obtain ⟨A, B, hAB⟩ := ih h'
      exact ⟨flattenTree [s] ++ A, B, by rw [flattenTree_cons, hAB]; simp⟩

theorem nodeIn_flattenTree_seg {t u : Node} (h : NodeIn t u) :
    ∃ A B, flattenTree [u] = A ++ flattenTree [t] ++ B := by
  induction h with
  | refl => exact ⟨[], [], by simp⟩
  | @child s c rs hs hin ih =>
    obtain ⟨A, B, hAB⟩ := ih
    obtain ⟨A', B', hAB'⟩ := mem_flattenTree_seg hs
    refine ⟨c :: A' ++ A, B ++ B', ?_⟩
    rw [flattenTree_single, hAB', hAB]
    simp

theorem inForest_flattenTree_seg {t : Node} {F : List Node}
    (h : InForest t F) :
    ∃ A B, flattenTree F = A ++ (t.comment :: flattenTree t.replies) ++ B := by
  obtain ⟨r, hr, hin⟩ := h
  obtain ⟨A, B, hAB⟩ := mem_flattenTree_seg hr
  obtain ⟨A', B', hAB'⟩ := nodeIn_flattenTree_seg hin
  refine ⟨A ++ A', B' ++ B, ?_⟩
  rw [hAB, hAB', flattenTree_node]
  simp

/-! ## Ordering facts for the ranking module -/

theorem leTop_total : ∀ a b : Comment, leTop a b ∨ leTop b a := by
  intro a b
  simp only [leTop, cmpTop]
  split_ifs <;> omega

theorem leTop_trans : ∀ a b c : Comment, leTop a b → leTop b c → leTop a c := by
  intro a b c
  simp only [leTop, cmpTop]
  split_ifs <;> omega

instance : IsTotal Comment leTop := ⟨leTop_total⟩
instance : IsTrans Comment leTop := ⟨leTop_trans⟩

theorem sortComments_top_eq (C : List Comment) :
    sortComments C "top" = List.insertionSort leTop C := by
  simp [sortComments]

theorem sortComments_perm (C : List Comment) (pol : String) :
    (sortComments C pol).Perm C := by
  unfold sortComments
  split_ifs <;> exact List.perm_insertionSort _ _

theorem sortComments_fallback {pol : String} (C : List Comment)
    (h1 : pol ≠ "new") (h2 : pol ≠ "old") (h3 : pol ≠ "controversial") :
    sortComments C pol = sortComments C "top" := by
  simp [sortComments, h1, h2, h3]

theorem sortComments_top_sorted (C : List Comment) :
    List.Sorted leTop (sortComments C "top") := by
  rw [sortComments_top_eq]
  exact List.sorted_insertionSort leTop C

theorem leTop_spec {a b : Comment} (h : leTop a b) :
    b.score.getD 0 < a.score.getD 0 ∨
      (a.score.getD 0 = b.score.getD 0 ∧ jsTime b ≤ jsTime a) := by
  simp only [leTop, cmpTop] at h
  split_ifs at h <;> omega

/-! ## Facts about the engine embedding -/

theorem validateContent_error_code {opts : Options} {content : String}
    {e : EngineError} (h : validateContent opts content = .error e) :
    ∃ m, e = .commentErr m "EMPTY_CONTENT" ∨ e = .commentErr m "MAX_LENGTH" := by
  simp only [validateContent] at h
  split_ifs at h
  · injection h with h1
    exact ⟨"Content is required", Or.inl h1.symm⟩
  · injection h with h1
    exact ⟨"Content cannot be empty", Or.inl h1.symm⟩
  · injection h with h1
    exact ⟨"Content exceeds maximum length of " ++ toString opts.maxLength,
      Or.inr h1.symm⟩

theorem validateContent_hello {opts : Options}
    (hlen : (5 : Int) ≤ opts.maxLength) :
    validateContent opts "hello" = .ok "hello" := by
  have ht : jsTrim "hello" = "hello" := by decide
  simp only [validateContent]
  split_ifs with h1 h2 h3
  · exact absurd h1 (by decide)
  · exact absurd h2 (by decide)
  · exfalso
    have h5 : ((jsTrim "hello").length : Int) = 5 := by decide
    rw [h5] at h3
    omega
  · rw [ht]

theorem find?_mapSet_self (l : List (String × Comment)) (k : String)
    (v : Comment) :
    (mapSet l k v).find? (fun p => p.1 == k) = some (k, v) := by
  unfold mapSet
  by_cases hk : l.any (fun p => p.1 == k)
  · rw [if_pos hk]
    induction l with
    | nil => simp at hk
    | cons p l ih =>
      by_cases hpk : p.1 = k
      · simp [List.find?_cons, hpk]
      · have hpk' : (p.1 == k) = false := by simpa using hpk
        have hk' : l.any (fun p => p.1 == k) = true := by
          rcases List.any_eq_true.mp hk with ⟨q, hq, hqk⟩
          rcases List.mem_cons.mp hq with rfl | hq'
          · exact absurd hqk (by simp [hpk'])
          · exact List.any_eq_true.mpr ⟨q, hq', hqk⟩
        simp only [List.map_cons, hpk', if_neg, Bool.false_eq_true,
          not_false_iff, List.find?_cons, ite_false]
        exact ih hk'
  · rw [if_neg hk, List.find?_append]
    have hnone : l.find? (fun p => p.1 == k) = none := by
      rw [List.find?_eq_none]
      intro p hp hbeq
      exact hk (List.any_eq_true.mpr ⟨p, hp, hbeq⟩)
    rw [hnone]
    simp

theorem mapSet_keys_nodup {l : List (String × Comment)} {k : String}
    {v : Comment} (hnd : (l.map Prod.fst).Nodup) :
    ((mapSet l k v).map Prod.fst).Nodup := by
  unfold mapSet
  by_cases hk : l.any (fun p => p.1 == k)
  · rw [if_pos hk, List.map_map]
    have h1 : ∀ p ∈ l, (Prod.fst ∘ fun q =>
        if q.1 == k then (k, v) else q) p = p.1 := by
      intro p hp
      simp only [Function.comp_apply]
      by_cases hpk : (p.1 == k) = true
      · rw [if_pos hpk]
        exact (by simpa using hpk : p.1 = k).symm
      · rw [if_neg hpk]
    rw [List.map_congr_left h1]
    exact hnd
  · rw [if_neg hk, List.map_append]
    rw [List.nodup_append]
    refine ⟨hnd, List.nodup_singleton _, ?_⟩
    intro x hx hx'
    simp only [List.map_cons, List.map_nil, List.mem_singleton] at hx'
    subst hx'
    obtain ⟨p, hp, hpk⟩ := List.mem_map.mp hx
    exact hk (List.any_eq_true.mpr ⟨p, hp, by simp [hpk]⟩)

theorem getCommentMem_save {st : MemState} {now : Nat} {c : Comment} :
    getCommentMem (saveCommentMem st now c).2 (saveCommentMem st now c).1.id =
      some (saveCommentMem st now c).1 := by
  unfold getCommentMem saveCommentMem
  simp only
  rw [find?_mapSet_self]
  rfl

/-! ## Claim theorems -/

/-- C6: `calculateControversy` of a comment with `u` upvotes and `d`
downvotes and `t = u + d` is `0` when `t = 0` and `t - |u - d|` (that is,
`t * (1 - |u - d| / t)`) otherwise; in particular 10-versus-1 votes score
strictly below 5-versus-5, and no votes score 0. -/
theorem c6_controversy :
    (∀ c : Comment,
      calculateControversy c =
        (if ((c.upvotes.getD 0 : Nat) : ℚ) + ((c.downvotes.getD 0 : Nat) : ℚ)
            = 0 then 0
         else (((c.upvotes.getD 0 : Nat) : ℚ) + ((c.downvotes.getD 0 : Nat) : ℚ))
           - |((c.upvotes.getD 0 : Nat) : ℚ) - ((c.downvotes.getD 0 : Nat) : ℚ)|)) ∧
    calculateControversy { upvotes := some 10, downvotes := some 1 } <
      calculateControversy { upvotes := some 5, downvotes := some 5 } ∧
    calculateControversy { upvotes := some 0, downvotes := some 0 } = 0 := by
  have key : ∀ c : Comment,
      calculateControversy c =
        (if ((c.upvotes.getD 0 : Nat) : ℚ) + ((c.downvotes.getD 0 : Nat) : ℚ)
            = 0 then 0
         else (((c.upvotes.getD 0 : Nat) : ℚ) + ((c.downvotes.getD 0 : Nat) : ℚ))
           - |((c.upvotes.getD 0 : Nat) : ℚ) - ((c.downvotes.getD 0 : Nat) : ℚ)|) := by
    intro c
    simp only [calculateControversy]
    by_cases h : ((c.upvotes.getD 0 : Nat) : ℚ) + ((c.downvotes.getD 0 : Nat) : ℚ) = 0
    · rw [if_pos h, if_pos h]
    · rw [if_neg h, if_neg h]
      field_simp
  refine ⟨key, ?_, ?_⟩
  · rw [key { upvotes := some 10, downvotes := some 1 },
      key { upvotes := some 5, downvotes := some 5 }]
    norm_num
  · rw [key { upvotes := some 0, downvotes := some 0 }]
    norm_num

/-- C7: sorting under `'top'` orders descending by score with ties broken
by descending creation timestamp, returns a permutation of the input
(non-mutation is intrinsic to the embedding), and every unrecognized
policy name produces exactly the ordering of `'top'`. -/
theorem c7_sort_top (C : List Comment) (pol : String)
    (h1 : pol ≠ "new") (h2 : pol ≠ "old") (h3 : pol ≠ "controversial") :
    sortComments C pol = sortComments C "top" ∧
    (sortComments C "top").Perm C ∧
    List.Sorted (fun a b =>
      b.score.getD 0 < a.score.getD 0 ∨
        (a.score.getD 0 = b.score.getD 0 ∧ jsTime b ≤ jsTime a))
      (sortComments C "top") :=
  ⟨sortComments_fallback C h1 h2 h3, sortComments_perm C "top",
   (sortComments_top_sorted C).imp (fun h => leTop_spec h)⟩

theorem c7_sort_top_witness :
    (("hot" : String) ≠ "new" ∧ ("hot" : String) ≠ "old" ∧
      ("hot" : String) ≠ "controversial") ∧
    (sortComments [{ score := some 5 }, { score := some 10 },
        { score := some 3 }] "hot" =
      sortComments [{ score := some 5 }, { score := some 10 },
        { score := some 3 }] "top" ∧
    (sortComments [{ score := some 5 }, { score := some 10 },
        { score := some 3 }] "top").Perm
      [{ score := some 5 }, { score := some 10 }, { score := some 3 }] ∧
    List.Sorted (fun a b =>
      b.score.getD 0 < a.score.getD 0 ∨
        (a.score.getD 0 = b.score.getD 0 ∧ jsTime b ≤ jsTime a))
      (sortComments [{ score := some 5 }, { score := some 10 },
        { score := some 3 }] "top")) :=
  ⟨⟨by decide, by decide, by decide⟩,
   c7_sort_top [{ score := some 5 }, { score := some 10 },
     { score := some 3 }] "hot" (by decide) (by decide) (by decide)⟩

/-- C1 counterexample: in `exSelf` the single comment names itself as its
parent; `buildTree` attaches its node to itself and drops it from the root
forest, so `countComments (buildTree exSelf)` is `0` while `|exSelf| = 1` —
the claimed identity `countComments (buildTree C) = |C|` fails. -/
theorem c1_counterexample :
    countComments (buildTree exSelf) = 0 ∧ exSelf.length = 1 := by
  constructor
  · have hb : buildTree exSelf = [] := rfl
    rw [hb]
    simp [countComments]
  · rfl

/-- C1 (amended): for a collection with pairwise-distinct ids in which
every comment's parent chain reaches a root (no comment lies on or under a
parent cycle), `buildTree` partitions the input: the forest's roots are
exactly the comments whose parent id does not resolve (null, empty, or
absent from the collection), in input order, and the total node count of
the forest equals the size of the input. -/
theorem c1_buildTree_partition (C : List Comment)
    (hid : (C.map Comment.id).Nodup) (hacyc : Acyclic C) :
    (buildTree C).map Node.comment =
      C.filter (fun c => (resolve C c).isNone) ∧
    countComments (buildTree C) = C.length :=
  ⟨buildTree_map_comment hid, countComments_buildTree hid hacyc⟩

theorem c1_buildTree_partition_witness :
    (((([{ id := "a" }, { id := "b", parentId := some "a" },
        { id := "c", parentId := some "b" }] : List Comment).map
          Comment.id).Nodup ∧
      Acyclic [{ id := "a" }, { id := "b", parentId := some "a" },
        { id := "c", parentId := some "b" }]) ∧
    ((buildTree [{ id := "a" }, { id := "b", parentId := some "a" },
        { id := "c", parentId := some "b" }]).map Node.comment =
      ([{ id := "a" }, { id := "b", parentId := some "a" },
        { id := "c", parentId := some "b" }] : List Comment).filter
        (fun c => (resolve [{ id := "a" }, { id := "b", parentId := some "a" },
          { id := "c", parentId := some "b" }] c).isNone) ∧
    countComments (buildTree [{ id := "a" },
      { id := "b", parentId := some "a" },
      { id := "c", parentId := some "b" }]) = 3)) :=
  ⟨⟨by decide, by decide⟩,
   c1_buildTree_partition _ (by decide) (by decide)⟩

/-- C2 counterexample: in `exDup` two sibling records share the id `"y"`;
the comment map keeps only the later record, so the earlier sibling — a
child of `"x"` by its parent id — never appears in any reply sequence of
`buildTree exDup`, refuting the claim that for every input collection the
children of a parent appear in its reply sequence in input order. -/
theorem c2_counterexample :
    ({ id := "y", parentId := some "x", content := "first" } : Comment)
      ∈ exDup ∧
    resolve exDup { id := "y", parentId := some "x", content := "first" }
      = some "x" ∧
    ∀ t ∈ buildTree exDup,
      ({ id := "y", parentId := some "x", content := "first" } : Comment)
        ∉ t.replies.map Node.comment := by
  refine ⟨by decide, by decide, ?_⟩
  intro t ht
  have hb : buildTree exDup = [nodeOf exDup 3 "x"] := rfl
  rw [hb, List.mem_singleton] at ht
  subst ht
  decide

/-- C2 (amended): for a collection with pairwise-distinct ids, every node
of `buildTree C` carries as its reply sequence exactly the comments of `C`
whose parent id resolves to that node's id, in input order — the builder
neither reorders nor drops siblings. -/
theorem c2_sibling_order (C : List Comment)
    (hid : (C.map Comment.id).Nodup) :
    ∀ t : Node, InForest t (buildTree C) →
      t.replies.map Node.comment =
        C.filter (fun c => resolve C c == some t.comment.id) :=
  fun _ h => inForest_replies hid h

theorem c2_sibling_order_witness :
    ((([{ id := "r" }, { id := "s", parentId := some "r" },
        { id := "u", parentId := some "r" }] : List Comment).map
          Comment.id).Nodup) ∧
    ((nodeOf [{ id := "r" }, { id := "s", parentId := some "r" },
        { id := "u", parentId := some "r" }] 3 "r").replies.map Node.comment =
      ([{ id := "r" }, { id := "s", parentId := some "r" },
        { id := "u", parentId := some "r" }] : List Comment).filter
        (fun c => resolve [{ id := "r" }, { id := "s", parentId := some "r" },
          { id := "u", parentId := some "r" }] c ==
          some (nodeOf [{ id := "r" }, { id := "s", parentId := some "r" },
            { id := "u", parentId := some "r" }] 3 "r").comment.id)) :=
  ⟨by decide,
   c2_sibling_order _ (by decide) _
     ⟨nodeOf [{ id := "r" }, { id := "s", parentId := some "r" },
        { id := "u", parentId := some "r" }] 3 "r",
      List.mem_singleton.mpr rfl, NodeIn.refl _⟩⟩

/-- C3 counterexample: in `exCycle` the two comments form a parent cycle;
`buildTree` leaves both out of the forest, so
`flattenTree (buildTree exCycle)` is empty while `exCycle` has two
elements — the flattening does not contain the same elements as the
input. -/
theorem c3_counterexample :
    flattenTree (buildTree exCycle) = [] ∧ exCycle.length = 2 := by
  constructor
  · have hb : buildTree exCycle = [] := rfl
    rw [hb]
    simp [flattenTree]
  · rfl

/-- C3 (amended): `flattenTree` is a pre-order traversal — the forest's
node count equals the flattening's length, and each node's comment appears
immediately before the flattening of its replies, as one contiguous
segment — and for a collection with pairwise-distinct ids whose parent
chains all reach a root, `flattenTree (buildTree C)` is a duplicate-free
permutation of `C`. -/
theorem c3_flatten_preorder (C : List Comment)
    (hid : (C.map Comment.id).Nodup) (hacyc : Acyclic C) :
    (∀ F : List Node, countComments F = (flattenTree F).length) ∧
    (∀ t : Node, InForest t (buildTree C) →
      ∃ A B, flattenTree (buildTree C) =
        A ++ (t.comment :: flattenTree t.replies) ++ B) ∧
    (flattenTree (buildTree C)).Perm C ∧
    (flattenTree (buildTree C)).Nodup :=
  ⟨countComments_eq_length,
   fun _ h => inForest_flattenTree_seg h,
   flattenTree_buildTree_perm hid hacyc,
   ((flattenTree_buildTree_perm hid hacyc).nodup_iff).mpr hid.of_map⟩

theorem c3_flatten_preorder_witness :
    ((([{ id := "a" }, { id := "b", parentId := some "a" }] :
        List Comment).map Comment.id).Nodup ∧
      Acyclic [{ id := "a" }, { id := "b", parentId := some "a" }]) ∧
    ((∀ F : List Node, countComments F = (flattenTree F).length) ∧
    (∀ t : Node, InForest t
        (buildTree [{ id := "a" }, { id := "b", parentId := some "a" }]) →
      ∃ A B, flattenTree
          (buildTree [{ id := "a" }, { id := "b", parentId := some "a" }]) =
        A ++ (t.comment :: flattenTree t.replies) ++ B) ∧
    (flattenTree
        (buildTree [{ id := "a" }, { id := "b", parentId := some "a" }])).Perm
      [{ id := "a" }, { id := "b", parentId := some "a" }] ∧
    (flattenTree
        (buildTree [{ id := "a" },
          { id := "b", parentId := some "a" }])).Nodup) :=
  ⟨⟨by decide, by decide⟩,
   c3_flatten_preorder _ (by decide) (by decide)⟩

/-! ## Further engine lemmas -/

theorem saveCommentMem_fst (st : MemState) (now : Nat) (c : Comment) :
    (saveCommentMem st now c).1 =
      { c with
        id := "comment_" ++ toString (st.idCounter + 1)
        createdAt :=
          match c.createdAt with | some t => some t | none => some now } := by
  simp [saveCommentMem]

theorem saveCommentMem_id_ne (st : MemState) (now : Nat) (c : Comment) :
    (saveCommentMem st now c).1.id ≠ "" := by
  rw [saveCommentMem_fst]
  intro h
  have hlen := congrArg String.length h
  rw [String.length_append] at hlen
  have h8 : ("comment_" : String).length = 8 := by decide
  have h0 : ("" : String).length = 0 := rfl
  rw [h8, h0] at hlen
  omega

theorem maxlength_code_ne (n : Int) :
    ("MAX_LENGTH" : String) ≠ "Content exceeds maximum length of "
      ++ toString n := by
  intro h
  have hlen := congrArg String.length h
  rw [String.length_append] at hlen
  have h1 : ("MAX_LENGTH" : String).length = 10 := by decide
  have h2 : ("Content exceeds maximum length of " : String).length = 34 := by
    decide
  rw [h1, h2] at hlen
  omega

theorem maxdepth_code_ne (n : Int) :
    ("MAX_DEPTH" : String) ≠ "Maximum comment depth of " ++ toString n
      ++ " exceeded" := by
  intro h
  have hlen := congrArg String.length h
  rw [String.length_append, String.length_append] at hlen
  have h1 : ("MAX_DEPTH" : String).length = 9 := by decide
  have h2 : ("Maximum comment depth of " : String).length = 25 := by decide
  have h3 : (" exceeded" : String).length = 9 := by decide
  rw [h1, h2, h3] at hlen
  omega

theorem save_pack (st : MemState) (now : Nat) (b : Comment) :
    ∃ c st2, (Except.ok (saveCommentMem st now b) :
        Except EngineError (Comment × MemState)) = .ok (c, st2) ∧
      c.depth = b.depth ∧ c.id ≠ "" ∧ c.postId = b.postId ∧
      getCommentMem st2 c.id = some c :=
  ⟨(saveCommentMem st now b).1, (saveCommentMem st now b).2, rfl,
   by rw [saveCommentMem_fst], saveCommentMem_id_ne _ _ _,
   by rw [saveCommentMem_fst], getCommentMem_save⟩

theorem reply_resolved (opts : Options) (st : MemState)
    (postId parentId authorId content : String) (now : Nat)
    (parent : Comment)
    (hp : postId ≠ "") (hpar : parentId ≠ "") (ha : authorId ≠ "")
    (hget : getCommentMem st parentId = some parent)
    (hpm : ¬(parent.postId ≠ some postId ∧ parent.post_id ≠ some postId)) :
    reply opts st postId parentId authorId content now =
      (if parent.depth.getD 0 + 1 > opts.maxDepth then
        .error (.commentErr ("Maximum comment depth of "
          ++ toString opts.maxDepth ++ " exceeded") "MAX_DEPTH")
      else (validateContent opts content).bind fun validated =>
        .ok (saveCommentMem st now
          { postId := some postId
            authorId := some authorId
            content := validated
            parentId := some parentId
            depth := some (parent.depth.getD 0 + 1)
            score := some 0
            upvotes := some 0
            downvotes := some 0
            createdAt := some now })) := by
  simp only [reply, if_neg hp, if_neg hpar, if_neg ha, hget, if_neg hpm]

theorem reply_parent_missing (opts : Options) (st : MemState)
    (postId parentId authorId content : String) (now : Nat)
    (hp : postId ≠ "") (hpar : parentId ≠ "") (ha : authorId ≠ "")
    (hget : getCommentMem st parentId = none) :
    reply opts st postId parentId authorId content now =
      .error (.commentErr "Parent comment not found" "PARENT_NOT_FOUND") := by
  simp only [reply, if_neg hp, if_neg hpar, if_neg ha, hget]

/-- C4: when the parent of a reply resolves, belongs to the supplied post
and carries depth `d`, the reply fails with the MaxDepth error exactly when
`d + 1` exceeds the configured `maxDepth`, every successful reply is stored
with depth `d + 1`, and a chain of `n` repeated replies from a freshly
created root succeeds with depth `n` whenever `n ≤ maxDepth`. -/
theorem c4_reply_depth :
    (∀ (opts : Options) (st : MemState)
        (postId parentId authorId content : String) (now : Nat)
        (parent : Comment) (d : Int),
      postId ≠ "" → parentId ≠ "" → authorId ≠ "" →
      getCommentMem st parentId = some parent →
      (parent.postId = some postId ∨ parent.post_id = some postId) →
      parent.depth = some d →
      ((∃ m, reply opts st postId parentId authorId content now =
          .error (.commentErr m "MAX_DEPTH")) ↔ opts.maxDepth < d + 1) ∧
      (∀ c st', reply opts st postId parentId authorId content now =
          .ok (c, st') → c.depth = some (d + 1))) ∧
    (∀ (opts : Options) (p a : String) (now : Nat) (n : Nat),
      p ≠ "" → a ≠ "" → (5 : Int) ≤ opts.maxLength →
      (n : Int) ≤ opts.maxDepth →
      ∃ c st, replyChain opts p a now n = .ok (c, st) ∧
        c.depth = some (n : Int)) := by
  constructor
  · intro opts st postId parentId authorId content now parent d hp hpar ha
      hget hpm hd
    have hpm' : ¬(parent.postId ≠ some postId ∧
        parent.post_id ≠ some postId) := by
      rcases hpm with h | h
      · exact fun hc => hc.1 h
      · exact fun hc => hc.2 h
    have hr := reply_resolved opts st postId parentId authorId content now
      parent hp hpar ha hget hpm'
    rw [hd, Option.getD_some] at hr
    constructor
    · constructor
      · rintro ⟨m, hm⟩
        rw [hr] at hm
        by_cases hmd : d + 1 > opts.maxDepth
        · omega
        · exfalso
          rw [if_neg hmd] at hm
          rcases hv : validateContent opts content with e | v <;>
            rw [hv] at hm
          · simp only [Except.bind] at hm
            obtain ⟨m', hcode⟩ := validateContent_error_code hv
            rcases hcode with rfl | rfl
            · injection hm with h2
              injection h2 with h3 h4
              exact absurd h4 (by decide)
            · injection hm with h2
              injection h2 with h3 h4
              exact absurd h4 (by decide)
          · simp only [Except.bind] at hm
            exact absurd hm (by simp)
      · intro hlt
        rw [hr, if_pos (by omega)]
        exact ⟨_, rfl⟩
    · intro c st' hok
      rw [hr] at hok
      by_cases hmd : d + 1 > opts.maxDepth
      · rw [if_pos hmd] at hok
        exact absurd hok (by simp)
      · rw [if_neg hmd] at hok
        rcases hv : validateContent opts content with e | v <;>
          rw [hv] at hok
        · simp only [Except.bind] at hok
          exact absurd hok (by simp)
        · simp only [Except.bind] at hok
          injection hok with h1
          have hc := congrArg (fun q : Comment × MemState => q.1.depth) h1
          simp only [saveCommentMem_fst] at hc
          exact hc.symm
  · intro opts p a now n hp ha hlen hmd
    have key : ∀ m : Nat, (m : Int) ≤ opts.maxDepth →
        ∃ c st, replyChain opts p a now m = .ok (c, st) ∧
          c.depth = some (m : Int) ∧ c.id ≠ "" ∧ c.postId = some p ∧
          getCommentMem st c.id = some c := by
      intro m
      induction m with
      | zero =>
        intro hm0
        have hcr : create opts {} p a "hello" now =
            .ok (saveCommentMem {} now
              { postId := some p
                authorId := some a
                content := "hello"
                parentId := none
                depth := some 0
                score := some 0
                upvotes := some 0
                downvotes := some 0
                createdAt := some now }) := by
          simp only [create, if_neg hp, if_neg ha,
            validateContent_hello hlen, Except.bind]
        obtain ⟨c0, st0, hpack, hdep0, hne0, hpost0, hget0⟩ :=
          save_pack {} now
            { postId := some p
              authorId := some a
              content := "hello"
              parentId := none
              depth := some 0
              score := some 0
              upvotes := some 0
              downvotes := some 0
              createdAt := some now }
        refine ⟨c0, st0, hcr.trans hpack, ?_, hne0, ?_, hget0⟩
        · rw [hdep0]
          simp
        · rw [hpost0]
      | succ m ih =>
        intro hm1
        obtain ⟨c, st, hchain, hdep, hcid, hpost, hget⟩ := ih (by
          push_cast at hm1 ⊢
          omega)
        have hpm' : ¬(c.postId ≠ some p ∧ c.post_id ≠ some p) :=
          fun hc => hc.1 hpost
        have hr := reply_resolved opts st p c.id a "hello" now c hp hcid ha
          hget hpm'
        rw [hdep, Option.getD_some] at hr
        have hnd : ¬((m : Int) + 1 > opts.maxDepth) := by
          push_cast at hm1
          omega
        rw [if_neg hnd, validateContent_hello hlen] at hr
        simp only [Except.bind] at hr
        have hstep : replyChain opts p a now (m + 1) =
            reply opts st p c.id a "hello" now := by
          simp only [replyChain, hchain, Except.bind]
        obtain ⟨c1, st1, hpack, hdep1, hne1, hpost1, hget1⟩ :=
          save_pack st now
            { postId := some p
              authorId := some a
              content := "hello"
              parentId := some c.id
              depth := some ((m : Int) + 1)
              score := some 0
              upvotes := some 0
              downvotes := some 0
              createdAt := some now }
        refine ⟨c1, st1, (hstep.trans hr).trans hpack, ?_, hne1, ?_, hget1⟩
        · rw [hdep1]
          show some ((m : Int) + 1) = some ((m + 1 : Nat) : Int)
          push_cast
          rfl
        · rw [hpost1]
    obtain ⟨c, st, h1, h2, -, -, -⟩ := key n hmd
    exact ⟨c, st, h1, h2⟩

theorem c4_reply_depth_witness :
    ((("p1" : String) ≠ "" ∧ ("a1" : String) ≠ "" ∧
      (5 : Int) ≤ DEFAULT_OPTIONS.maxLength ∧
      ((3 : Nat) : Int) ≤ DEFAULT_OPTIONS.maxDepth) ∧
    ∃ c st, replyChain DEFAULT_OPTIONS "p1" "a1" 7 3 = .ok (c, st) ∧
      c.depth = some ((3 : Nat) : Int)) :=
  ⟨⟨by decide, by decide, by decide, by decide⟩,
   c4_reply_depth.2 DEFAULT_OPTIONS "p1" "a1" 7 3 (by decide) (by decide)
     (by decide) (by decide)⟩

/-- C10: when the parent record fetched from storage carries no depth
field, `reply` treats the parent's depth as 0: the MaxDepth check is made
against `0 + 1` — failing with the MaxDepth error exactly when `maxDepth`
is below 1 — and a successful reply is persisted with depth 1. -/
theorem c10_missing_depth (opts : Options) (st : MemState)
    (postId parentId authorId content : String) (now : Nat)
    (parent : Comment)
    (hp : postId ≠ "") (hpar : parentId ≠ "") (ha : authorId ≠ "")
    (hget : getCommentMem st parentId = some parent)
    (hpm : parent.postId = some postId ∨ parent.post_id = some postId)
    (hd : parent.depth = none) :
    (opts.maxDepth < 1 →
      reply opts st postId parentId authorId content now =
        .error (.commentErr ("Maximum comment depth of "
          ++ toString opts.maxDepth ++ " exceeded") "MAX_DEPTH")) ∧
    (∀ v, 1 ≤ opts.maxDepth → validateContent opts content = .ok v →
      ∃ c st', reply opts st postId parentId authorId content now =
        .ok (c, st') ∧ c.depth = some 1 ∧
        getCommentMem st' c.id = some c) := by
  have hpm' : ¬(parent.postId ≠ some postId ∧
      parent.post_id ≠ some postId) := by
    rcases hpm with h | h
    · exact fun hc => hc.1 h
    · exact fun hc => hc.2 h
  have hr := reply_resolved opts st postId parentId authorId content now
    parent hp hpar ha hget hpm'
  rw [hd, Option.getD_none] at hr
  constructor
  · intro hlt
    rw [hr, if_pos (by omega)]
  · intro v hle hv
    rw [hr, if_neg (by omega), hv]
    simp only [Except.bind]
    obtain ⟨c1, st1, hpack, hdep1, hne1, hpost1, hget1⟩ :=
      save_pack st now
        { postId := some postId
          authorId := some authorId
          content := v
          parentId := some parentId
          depth := some (0 + 1)
          score := some 0
          upvotes := some 0
          downvotes := some 0
          createdAt := some now }
    refine ⟨c1, st1, hpack, ?_, hget1⟩
    rw [hdep1]
    norm_num

theorem c10_missing_depth_witness :
    (("p" : String) ≠ "" ∧ ("par" : String) ≠ "" ∧
      ("ag" : String) ≠ "" ∧
      getCommentMem
        { comments := [("par", { id := "par", postId := some "p" })],
          idCounter := 1 } "par" =
        some { id := "par", postId := some "p" } ∧
      (({ id := "par", postId := some "p" } : Comment).postId = some "p" ∨
        ({ id := "par", postId := some "p" } : Comment).post_id = some "p") ∧
      ({ id := "par", postId := some "p" } : Comment).depth = none) ∧
    ((DEFAULT_OPTIONS.maxDepth < 1 →
      reply DEFAULT_OPTIONS
        { comments := [("par", { id := "par", postId := some "p" })],
          idCounter := 1 } "p" "par" "ag" "hi" 4 =
        .error (.commentErr ("Maximum comment depth of "
          ++ toString DEFAULT_OPTIONS.maxDepth ++ " exceeded") "MAX_DEPTH")) ∧
    (∀ v, 1 ≤ DEFAULT_OPTIONS.maxDepth →
      validateContent DEFAULT_OPTIONS "hi" = .ok v →
      ∃ c st', reply DEFAULT_OPTIONS
        { comments := [("par", { id := "par", postId := some "p" })],
          idCounter := 1 } "p" "par" "ag" "hi" 4 =
        .ok (c, st') ∧ c.depth = some 1 ∧
        getCommentMem st' c.id = some c)) :=
  ⟨⟨by decide, by decide, by decide, by decide, Or.inl (by decide),
    by decide⟩,
   c10_missing_depth DEFAULT_OPTIONS
     { comments := [("par", { id := "par", postId := some "p" })],
       idCounter := 1 } "p" "par" "ag" "hi" 4
     { id := "par", postId := some "p" }
     (by decide) (by decide) (by decide) (by decide) (Or.inl (by decide))
     (by decide)⟩

/-! ## Soft-delete state lemmas -/

theorem find?_map_keep (l : List (String × Comment))
    (g : Comment → Comment) (k q : String) :
    ((l.map (fun p => if p.1 == k then (p.1, g p.2) else p)).find?
        (fun p => p.1 == q)) =
      (l.find? (fun p => p.1 == q)).map
        (fun p => if p.1 == k then (p.1, g p.2) else p) := by
  have hfst : ∀ p : String × Comment,
      (if (p.1 == k) = true then (p.1, g p.2) else p).1 = p.1 := by
    intro p
    by_cases hpk : (p.1 == k) = true
    · rw [if_pos hpk]
    · rw [if_neg hpk]
  induction l with
  | nil => rfl
  | cons p l ih =>
    rw [List.map_cons]
    cases hpq : p.1 == q with
    | true => simp only [List.find?, hfst p, hpq, Option.map_some']
    | false =>
      simp only [List.find?, hfst p, hpq]
      exact ih

theorem getCommentMem_delete_self (st : MemState) (k : String) :
    getCommentMem (deleteCommentMem st k) k =
      (getCommentMem st k).map (fun c =>
        { c with content := "[deleted]", isDeleted := some true }) := by
  show ((st.comments.map (fun p => if p.1 == k
      then (p.1, { p.2 with content := "[deleted]", isDeleted := some true })
      else p)).find? (fun p => p.1 == k)).map (fun p => p.2) = _
  unfold getCommentMem
  rw [find?_map_keep st.comments
    (fun c => { c with content := "[deleted]", isDeleted := some true }) k k]
  cases hf : st.comments.find? (fun p => p.1 == k) with
  | none => rfl
  | some p =>
    have hkey : (p.1 == k) = true := by
      have := List.find?_some hf
      simpa using this
    simp only [Option.map_some', if_pos hkey]

theorem getCommentMem_delete_other (st : MemState) (k id2 : String)
    (h : id2 ≠ k) :
    getCommentMem (deleteCommentMem st k) id2 = getCommentMem st id2 := by
  show ((st.comments.map (fun p => if p.1 == k
      then (p.1, { p.2 with content := "[deleted]", isDeleted := some true })
      else p)).find? (fun p => p.1 == id2)).map (fun p => p.2) = _
  unfold getCommentMem
  rw [find?_map_keep st.comments
    (fun c => { c with content := "[deleted]", isDeleted := some true }) k id2]
  cases hf : st.comments.find? (fun p => p.1 == id2) with
  | none => rfl
  | some p =>
    have hkey : p.1 = id2 := by
      have := List.find?_some hf
      simpa using this
    have hnk : (p.1 == k) = false := by
      rw [hkey]
      simpa using h
    simp only [Option.map_some', hnk, Bool.false_eq_true, if_false]

/-- C5: `delete` fails with the NotFound error when the comment does not
resolve and with the Forbidden error when the comment's (truthy) author
differs from the agent — in both cases returning only the error, with no
storage mutation — and performs the storage soft delete exactly when the
comment exists with the agent as author: the stored record keeps every
field except that content becomes the literal `[deleted]` and the deletion
flag becomes true, and all other entries are untouched. -/
theorem c5_delete (st : MemState) (commentId agentId : String) :
    (getCommentMem st commentId = none →
      deleteOp st commentId agentId =
        .error (.commentErr "Comment not found" "NOT_FOUND")) ∧
    (∀ c, getCommentMem st commentId = some c →
      jsOrStr c.authorId c.author_id ≠ some agentId →
      deleteOp st commentId agentId =
        .error (.commentErr "Cannot delete another agent\x27s comment"
          "FORBIDDEN")) ∧
    (∀ c, getCommentMem st commentId = some c →
      jsOrStr c.authorId c.author_id = some agentId →
      deleteOp st commentId agentId = .ok (deleteCommentMem st commentId) ∧
      getCommentMem (deleteCommentMem st commentId) commentId =
        some { c with content := "[deleted]", isDeleted := some true } ∧
      ∀ id2, id2 ≠ commentId →
        getCommentMem (deleteCommentMem st commentId) id2 =
          getCommentMem st id2) := by
  refine ⟨?_, ?_, ?_⟩
  · intro hn
    simp only [deleteOp, hn]
  · intro c hc hne
    simp only [deleteOp, hc, if_pos hne]
  · intro c hc heq
    have hnot : ¬(jsOrStr c.authorId c.author_id ≠ some agentId) :=
      fun h => h heq
    refine ⟨by simp only [deleteOp, hc, if_neg hnot], ?_,
      fun id2 h2 => getCommentMem_delete_other st commentId id2 h2⟩
    rw [getCommentMem_delete_self, hc]
    rfl

theorem c5_delete_witness :
    (getCommentMem
        ⟨[("c1", { id := "c1", authorId := some "ag", content := "hi",
                   depth := some 0 })], 1⟩ "c1" =
      some { id := "c1", authorId := some "ag", content := "hi",
             depth := some 0 } ∧
     jsOrStr (some "ag") none = some "ag") ∧
    (deleteOp
        ⟨[("c1", { id := "c1", authorId := some "ag", content := "hi",
                   depth := some 0 })], 1⟩ "c1" "ag" =
      .ok (deleteCommentMem
        ⟨[("c1", { id := "c1", authorId := some "ag", content := "hi",
                   depth := some 0 })], 1⟩ "c1") ∧
    getCommentMem (deleteCommentMem
        ⟨[("c1", { id := "c1", authorId := some "ag", content := "hi",
                   depth := some 0 })], 1⟩ "c1") "c1" =
      some { id := "c1", authorId := some "ag", content := "[deleted]",
             depth := some 0, isDeleted := some true } ∧
    ∀ id2, id2 ≠ "c1" →
      getCommentMem (deleteCommentMem
        ⟨[("c1", { id := "c1", authorId := some "ag", content := "hi",
                   depth := some 0 })], 1⟩ "c1") id2 =
      getCommentMem
        ⟨[("c1", { id := "c1", authorId := some "ag", content := "hi",
                   depth := some 0 })], 1⟩ id2) :=
  ⟨⟨by decide, by decide⟩,
   (c5_delete
     ⟨[("c1", { id := "c1", authorId := some "ag", content := "hi",
                depth := some 0 })], 1⟩ "c1" "ag").2.2
     { id := "c1", authorId := some "ag", content := "hi", depth := some 0 }
     (by decide) (by decide)⟩

/-- C8 counterexample: a reply whose content trims to empty but whose
parent id does not resolve fails with the ParentNotFound error, not the
EmptyContent error — the content checks are not applied before the parent
is fetched. -/
theorem c8_counterexample :
    reply DEFAULT_OPTIONS {} "p" "x" "agent" "" 0 =
      .error (.commentErr "Parent comment not found" "PARENT_NOT_FOUND") ∧
    (EngineError.commentErr "Parent comment not found"
      "PARENT_NOT_FOUND").errCode ≠ some "EMPTY_CONTENT" := by
  exact ⟨rfl, by decide⟩

/-- C8 (amended): in `reply` only the required-field checks (MissingPost,
MissingParent, MissingAuthor) precede the parent fetch; the content checks
run after the parent is fetched and validated, so an unresolvable parent id
yields the ParentNotFound error whatever the content, and the EmptyContent
error is raised only once the parent has resolved, matched the post and
passed the depth check. -/
theorem c8_check_order :
    (∀ (opts : Options) (st : MemState)
        (postId parentId authorId content : String) (now : Nat),
      postId ≠ "" → parentId ≠ "" → authorId ≠ "" →
      getCommentMem st parentId = none →
      reply opts st postId parentId authorId content now =
        .error (.commentErr "Parent comment not found" "PARENT_NOT_FOUND")) ∧
    (∀ (opts : Options) (st : MemState)
        (postId parentId authorId : String) (now : Nat) (parent : Comment),
      postId ≠ "" → parentId ≠ "" → authorId ≠ "" →
      getCommentMem st parentId = some parent →
      (parent.postId = some postId ∨ parent.post_id = some postId) →
      ¬(parent.depth.getD 0 + 1 > opts.maxDepth) →
      reply opts st postId parentId authorId "" now =
        .error (.commentErr "Content is required" "EMPTY_CONTENT")) := by
  constructor
  · intro opts st postId parentId authorId content now hp hpar ha hget
    exact reply_parent_missing opts st postId parentId authorId content now
      hp hpar ha hget
  · intro opts st postId parentId authorId now parent hp hpar ha hget hpm hmd
    have hpm' : ¬(parent.postId ≠ some postId ∧
        parent.post_id ≠ some postId) := by
      rcases hpm with h | h
      · exact fun hc => hc.1 h
      · exact fun hc => hc.2 h
    rw [reply_resolved opts st postId parentId authorId "" now parent
      hp hpar ha hget hpm', if_neg hmd]
    rfl

theorem c8_check_order_witness :
    (("p" : String) ≠ "" ∧ ("x" : String) ≠ "" ∧ ("ag" : String) ≠ "" ∧
      getCommentMem {} "x" = none) ∧
    reply DEFAULT_OPTIONS {} "p" "x" "ag" "hello" 3 =
      .error (.commentErr "Parent comment not found" "PARENT_NOT_FOUND") :=
  ⟨⟨by decide, by decide, by decide, by decide⟩,
   c8_check_order.1 DEFAULT_OPTIONS {} "p" "x" "ag" "hello" 3
     (by decide) (by decide) (by decide) (by decide)⟩

theorem validateContent_error_cases {opts : Options} {content : String}
    {e : EngineError} (h : validateContent opts content = .error e) :
    e = .commentErr "Content is required" "EMPTY_CONTENT" ∨
    e = .commentErr "Content cannot be empty" "EMPTY_CONTENT" ∨
    e = .commentErr ("Content exceeds maximum length of "
      ++ toString opts.maxLength) "MAX_LENGTH" := by
  simp only [validateContent] at h
  split_ifs at h
  · injection h with h1
    exact Or.inl h1.symm
  · injection h with h1
    exact Or.inr (Or.inl h1.symm)
  · injection h with h1
    exact Or.inr (Or.inr h1.symm)

theorem codeMsg_of_validateContent_error {opts : Options} {content : String}
    {e : EngineError} (h : validateContent opts content = .error e) :
    ∃ m k, e = .commentErr m k ∧ k ≠ m := by
  rcases validateContent_error_cases h with rfl | rfl | rfl
  · exact ⟨_, _, rfl, by decide⟩
  · exact ⟨_, _, rfl, by decide⟩
  · exact ⟨_, _, rfl, maxlength_code_ne opts.maxLength⟩

/-- C9 counterexample: the construction-time adapter check and the
`updateScore` capability check raise plain errors carrying only a message
and no machine-readable code, refuting the claim that every failure raised
by the engine carries a code distinct from its message. -/
theorem c9_counterexample :
    validateAdapter { getComment := false } =
      .error (.plainErr "Adapter must implement getComment() method") ∧
    (EngineError.plainErr
      "Adapter must implement getComment() method").hasCode = false ∧
    updateScore { updateScore := false } {} "c" 1 =
      .error (.plainErr "Adapter does not support updateScore") ∧
    (EngineError.plainErr "Adapter does not support updateScore").hasCode
      = false :=
  ⟨rfl, rfl, rfl, rfl⟩

/-- C9 (amended): every `CommentError` raised by the engine's
create/reply/delete operations carries a machine-readable code distinct
from its human-readable message, but the two failures raised as plain
errors — the adapter-validation failure at construction time and the
missing `updateScore` capability — carry no code at all. -/
theorem c9_error_codes :
    (∀ (caps : AdapterCaps) (e : EngineError),
      validateAdapter caps = .error e → e.hasCode = false) ∧
    (∀ (caps : AdapterCaps) (st : MemState) (cid : String) (delta : Int)
        (e : EngineError),
      updateScore caps st cid delta = .error e → e.hasCode = false) ∧
    (∀ (opts : Options) (st : MemState) (p a c : String) (now : Nat)
        (e : EngineError),
      create opts st p a c now = .error e →
      ∃ m k, e = .commentErr m k ∧ k ≠ m) ∧
    (∀ (opts : Options) (st : MemState) (p pid a c : String) (now : Nat)
        (e : EngineError),
      reply opts st p pid a c now = .error e →
      ∃ m k, e = .commentErr m k ∧ k ≠ m) ∧
    (∀ (st : MemState) (cid aid : String) (e : EngineError),
      deleteOp st cid aid = .error e →
      ∃ m k, e = .commentErr m k ∧ k ≠ m) := by
  refine ⟨?_, ?_, ?_, ?_, ?_⟩
  · intro caps e h
    simp only [validateAdapter] at h
    split_ifs at h
    · injection h with h1
      rw [← h1]
      rfl
    · injection h with h1
      rw [← h1]
      rfl
    · injection h with h1
      rw [← h1]
      rfl
    · injection h with h1
      rw [← h1]
      rfl
  · intro caps st cid delta e h
    simp only [updateScore] at h
    split_ifs at h
    injection h with h1
    rw [← h1]
    rfl
  · intro opts st p a c now e h
    simp only [create] at h
    split_ifs at h
    · injection h with h1
      exact ⟨_, _, h1.symm, by decide⟩
    · injection h with h1
      exact ⟨_, _, h1.symm, by decide⟩
    · rcases hv : validateContent opts c with e' | v <;> rw [hv] at h
      · simp only [Except.bind] at h
        injection h with h1
        exact h1 ▸ codeMsg_of_validateContent_error hv
      · simp only [Except.bind] at h
        exact absurd h (by simp)
  · intro opts st p pid a c now e h
    rcases hg : getCommentMem st pid with _ | parent
    · simp only [reply, hg] at h
      split_ifs at h <;>
        first
        | (injection h with h1; exact ⟨_, _, h1.symm, by decide⟩)
    · simp only [reply, hg] at h
      split_ifs at h with h1 h2 h3 h4 h5
      · injection h with he
        exact ⟨_, _, he.symm, by decide⟩
      · injection h with he
        exact ⟨_, _, he.symm, by decide⟩
      · injection h with he
        exact ⟨_, _, he.symm, by decide⟩
      · injection h with he
        exact ⟨_, _, he.symm, by decide⟩
      · injection h with he
        exact ⟨_, _, he.symm, maxdepth_code_ne opts.maxDepth⟩
      · rcases hv : validateContent opts c with e' | v <;> rw [hv] at h
        · simp only [Except.bind] at h
          injection h with he
          exact he ▸ codeMsg_of_validateContent_error hv
        · simp only [Except.bind] at h
          exact absurd h (by simp)
  · intro st cid aid e h
    rcases hg : getCommentMem st cid with _ | c
    · simp only [deleteOp, hg] at h
      injection h with h1
      exact ⟨_, _, h1.symm, by decide⟩
    · simp only [deleteOp, hg] at h
      split_ifs at h
      injection h with h1
      exact ⟨_, _, h1.symm, by decide⟩

theorem c9_error_codes_witness :
    (validateAdapter { saveComment := false } =
      .error (.plainErr "Adapter must implement saveComment() method")) ∧
    (EngineError.plainErr
      "Adapter must implement saveComment() method").hasCode = false :=
  ⟨rfl, c9_error_codes.1 { saveComment := false }
    (.plainErr "Adapter must implement saveComment() method") rfl⟩
